import Mathlib

/- Shallow embedding of the trading-strategies repository.

   Part 1 embeds `MartingaleStrategy` from src/Martingel.py: the per-bar
   state machine (`run`), its check functions and the position-averaging
   update.  Python floats are modelled as rationals; Python exceptions
   (`NameError` from the undefined loop index `i` referenced inside
   `check_entry_condition`, `IndexError` from out-of-range list or
   `iloc` accesses, `ZeroDivisionError`) are modelled with `Except`.
   DataFrame signal columns are modelled as event lists. -/

inductive TDir
  | long
  | short
deriving DecidableEq

inductive PyErr
  | nameError
  | indexError
  | zeroDivisionError
  | valueError
deriving DecidableEq

/-- Mutable state of a `MartingaleStrategy` instance: the volatility
snapshots `x`, `y` computed at construction, the layer schedule, and the
fields initialised in `__init__` (src/Martingel.py lines 12-20). -/
structure MState where
  x : ℚ
  y : ℚ
  leverage_list : List ℚ
  position_list : List ℚ
  position : ℚ
  entry_price : ℚ
  total_loss : ℚ
  total_profit : ℚ
  current_layer : ℕ
  direction : Option TDir
deriving DecidableEq

/-- One row of the strategy DataFrame as read by `run`: the close price and
the precomputed MA columns. -/
structure MBar where
  close : ℚ
  ma13 : ℚ
  ma120 : ℚ
deriving DecidableEq

/-- Embeds `check_entry_condition` (src/Martingel.py lines 32-51).  When
`x <= 0.01` the body evaluates `self.df.at[i, ...]` where `i` is an
undefined name, raising `NameError`; otherwise the mis-indented
`return False` on line 35 exits unconditionally, so the MA-cross logic on
lines 36-51 is unreachable dead code. -/
def check_entry_condition (s : MState) (row : MBar) : Except PyErr Bool :=
  if s.x ≤ 1/100 then Except.error PyErr.nameError
  else Except.ok false

/-- Embeds `calculate_stop_loss` (lines 54-56):
`min(x/2, y) * leverage_list[layer]`. -/
def calculate_stop_loss (s : MState) (layer : ℕ) : Except PyErr ℚ :=
  match s.leverage_list.get? layer with
  | none => Except.error PyErr.indexError
  | some lv => Except.ok (min (s.x / 2) s.y * lv)

/-- Embeds `calculate_take_profit` (lines 58-61): fixed `leverage_list[0]*0.01`
for layer 0, else `min(x/2, y) * leverage_list[layer]`. -/
def calculate_take_profit (s : MState) (layer : ℕ) : Except PyErr ℚ :=
  match s.leverage_list.get? layer with
  | none => Except.error PyErr.indexError
  | some lv =>
    if layer = 0 then Except.ok (lv * (1/100))
    else Except.ok (min (s.x / 2) s.y * lv)

/-- Embeds `add_position` (lines 63-69).  Returns the updated state together
with the `open_signal` value written at the bar (`1` for long, `-1`
otherwise).  The weighted-average update divides by
`position + position_list[layer]`; a zero total raises `ZeroDivisionError`. -/
def add_position (s : MState) (price : ℚ) (layer : ℕ) : Except PyErr (MState × Int) :=
  match s.position_list.get? layer with
  | none => Except.error PyErr.indexError
  | some a =>
    if s.position + a = 0 then Except.error PyErr.zeroDivisionError
    else Except.ok
      ({ s with
          entry_price := (s.entry_price * s.position + price * a) / (s.position + a),
          position := s.position + a,
          current_layer := layer },
        if s.direction = some TDir.long then 1 else -1)

/-- Embeds `check_slope_reversal` (lines 71-74).  The guard only rejects
series shorter than 6, but the formula reads `iloc[-7]`, which needs 7
elements: a series of exactly 6 values raises `IndexError`.  In-range
`iloc[-k]` is element `length - k`, written here with `getD` (the default
is never taken once `7 ≤ length`). -/
def check_slope_reversal (l : List ℚ) : Except PyErr Bool :=
  if l.length < 6 then Except.ok false
  else if l.length < 7 then Except.error PyErr.indexError
  else Except.ok (decide
    ((l.getD (l.length - 1) 0 - l.getD (l.length - 6) 0) *
     (l.getD (l.length - 2) 0 - l.getD (l.length - 7) 0) < 0))

/-- Embeds `check_take_profit` (lines 76-79).  The relative move is signed
by `direction` (the `else` branch covers both `short` and `None`); dividing
by a zero `entry_price` raises `ZeroDivisionError`. -/
def check_take_profit (s : MState) (price : ℚ) : Except PyErr Bool :=
  if s.entry_price = 0 then Except.error PyErr.zeroDivisionError
  else
    let profit := if s.direction = some TDir.long
      then (price - s.entry_price) / s.entry_price
      else (s.entry_price - price) / s.entry_price
    match calculate_take_profit s s.current_layer with
    | Except.error e => Except.error e
    | Except.ok target => Except.ok (decide (target ≤ profit))

/-- Embeds `check_stop_loss` (lines 81-84): adverse relative move against the
stop target, or the cumulative-loss cap `total_loss >= 0.5`. -/
def check_stop_loss (s : MState) (price : ℚ) : Except PyErr Bool :=
  if s.entry_price = 0 then Except.error PyErr.zeroDivisionError
  else
    let loss := if s.direction = some TDir.long
      then (s.entry_price - price) / s.entry_price
      else (price - s.entry_price) / s.entry_price
    match calculate_stop_loss s s.current_layer with
    | Except.error e => Except.error e
    | Except.ok target => Except.ok (decide (target ≤ loss ∨ 1/2 ≤ s.total_loss))

/-- Take-profit close block of `run` (lines 98-101): `total_profit` is
increased by the raw `price - entry_price` (not signed by direction), and
`position`/`current_layer` are zeroed; `direction` and `entry_price` are
left unchanged. -/
def take_profit_close (s : MState) (price : ℚ) : MState :=
  { s with
      total_profit := s.total_profit + (price - s.entry_price),
      position := 0,
      current_layer := 0 }

/-- Forced-liquidation block of `run` (lines 109-111): `position` and
`current_layer` are zeroed; `direction` and `entry_price` are left
unchanged. -/
def liquidation_close (s : MState) : MState :=
  { s with position := 0, current_layer := 0 }

/-- Result of one iteration of the `run` loop body: next state, the
`open_signal` value written (if any), whether `close_signal` was set, and
whether the loop executed `break`. -/
structure StepOut where
  s : MState
  openSig : Option Int
  closeSig : Bool
  brk : Bool
deriving DecidableEq

/-- One iteration of the loop body of `run` (lines 87-112), with Python's
short-circuit `and`: the slope-reversal check is evaluated only when the
preceding take-profit / stop-loss check returned `True`.  The add branch
compares `current_layer < len(leverage_list) - 1` over the integers, as
Python does. -/
def run_step (s : MState) (bar : MBar) (window : List ℚ) : Except PyErr StepOut :=
  if s.position = 0 then
    match check_entry_condition s bar with
    | Except.error e => Except.error e
    | Except.ok b =>
      if b then
        match add_position s bar.close 0 with
        | Except.error e => Except.error e
        | Except.ok (s1, sig) => Except.ok ⟨s1, some sig, false, false⟩
      else Except.ok ⟨s, none, false, false⟩
  else
    match check_take_profit s bar.close with
    | Except.error e => Except.error e
    | Except.ok tp =>
      match (if tp then check_slope_reversal window else Except.ok false) with
      | Except.error e => Except.error e
      | Except.ok sr1 =>
        if tp && sr1 then
          Except.ok ⟨take_profit_close s bar.close, none, true, false⟩
        else
          match check_stop_loss s bar.close with
          | Except.error e => Except.error e
          | Except.ok sl =>
            match (if sl then check_slope_reversal window else Except.ok false) with
            | Except.error e => Except.error e
            | Except.ok sr2 =>
              if sl && sr2 then
                if (s.current_layer : ℤ) < (s.leverage_list.length : ℤ) - 1 then
                  match add_position s bar.close (s.current_layer + 1) with
                  | Except.error e => Except.error e
                  | Except.ok (s1, sig) => Except.ok ⟨s1, some sig, false, false⟩
                else
                  Except.ok ⟨liquidation_close s, none, true, true⟩
              else Except.ok ⟨s, none, false, false⟩

/-- Outcome of a whole `run`: final state, the state after each processed
bar, the `open_signal` / `close_signal` writes as (index, value) events,
the uncaught exception if one aborted the loop, and whether the loop ended
via the liquidation `break`. -/
structure RunRes where
  s : MState
  trace : List MState
  openSigs : List (ℕ × Int)
  closeSigs : List ℕ
  halted : Option PyErr
  brk : Bool
deriving DecidableEq

/-- The loop of `run` (lines 87-112).  Each bar `i` reads the MA13 window
`df['MA13'].iloc[max(0, i-5) : i+1]` from the full column; an uncaught
exception aborts the remaining bars, and the liquidation branch executes
`break`. -/
def run_aux (s : MState) (ma13s : List ℚ) : List MBar → ℕ → RunRes
  | [], _ => ⟨s, [], [], [], none, false⟩
  | bar :: rest, i =>
    let window := (ma13s.take (i+1)).drop (i - 5)
    match run_step s bar window with
    | Except.error e => ⟨s, [], [], [], some e, false⟩
    | Except.ok out =>
      let os := match out.openSig with
        | some v => [(i, v)]
        | none => []
      let cs := if out.closeSig then [i] else []
      if out.brk then ⟨out.s, [out.s], os, cs, none, true⟩
      else
        let r := run_aux out.s ma13s rest (i + 1)
        ⟨r.s, out.s :: r.trace, os ++ r.openSigs, cs ++ r.closeSigs, r.halted, r.brk⟩

/-- The state built by `__init__` (lines 12-17) for given volatility
snapshots and layer schedule. -/
def mk_init (x y : ℚ) (lev pos : List ℚ) : MState :=
  ⟨x, y, lev, pos, 0, 0, 0, 0, 0, none⟩

/-- Embeds `MartingaleStrategy.run` over a bar list, starting from state `s`. -/
def strategy_run (s : MState) (bars : List MBar) : RunRes :=
  run_aux s (bars.map fun b => b.ma13) bars 0

/-- Successive `add_position` calls at layers `k, k+1, ...`, one per price:
the add sequence the engine performs over a position's life (layer-0 entry
followed by martingale adds). -/
def add_seq : MState → List ℚ → ℕ → Except PyErr MState
  | s, [], _ => Except.ok s
  | s, p :: ps, layer =>
    match add_position s p layer with
    | Except.error e => Except.error e
    | Except.ok (s1, _) => add_seq s1 ps (layer + 1)

/-- One raw minute bar as used by the volatility snapshot: timestamp in
minutes since the epoch, plus high and low. -/
structure VBar where
  ts : ℕ
  high : ℚ
  low : ℚ
deriving DecidableEq

/-- The trailing slice `df[-24*60:]`: the last 1440 rows (all rows when
fewer). -/
def last_day (bars : List VBar) : List VBar :=
  bars.drop (bars.length - 1440)

/-- Rows falling into resample bucket `b` of width `m` minutes.  Pandas
`resample` anchors buckets at midnight, which for the widths used (240 and
60, both dividing a day) is the same as flooring `ts / m`. -/
def bucket_rows (bars : List VBar) (m b : ℕ) : List VBar :=
  bars.filter (fun r => r.ts / m = b)

/-- Python builtin `max`/`min` folds over a nonempty collection. -/
def qfold_max (x : ℚ) (l : List ℚ) : ℚ := l.foldl max x

def qfold_min (x : ℚ) (l : List ℚ) : ℚ := l.foldl min x

/-- The per-bucket quantity `(max(high) - min(low)) / min(low)`; an empty
bucket aggregates to NaN (`none`), as pandas fills gap buckets with NaN. -/
def bucket_range_value (bars : List VBar) (m b : ℕ) : Option ℚ :=
  match bucket_rows bars m b with
  | [] => none
  | r :: rs =>
    some ((qfold_max r.high (rs.map (fun q => q.high)) -
           qfold_min r.low (rs.map (fun q => q.low))) /
          qfold_min r.low (rs.map (fun q => q.low)))

/-- The resampled series of per-bucket values, one entry per bucket from the
first occupied bucket to the last (gap buckets included as `none`). -/
def bucket_values (bars : List VBar) (m : ℕ) : List (Option ℚ) :=
  match bars with
  | [] => []
  | r :: rs =>
    let bmin := (rs.map (fun q => q.ts / m)).foldl min (r.ts / m)
    let bmax := (rs.map (fun q => q.ts / m)).foldl max (r.ts / m)
    (List.range (bmax + 1 - bmin)).map (fun j => bucket_range_value (r :: rs) m (bmin + j))

/-- Python `a > b` where either side may be NaN: any comparison with NaN is
`False`. -/
def opt_gt : Option ℚ → Option ℚ → Bool
  | some a, some b => decide (b < a)
  | _, _ => false

/-- Python's builtin `max` over a possibly-NaN series: `ValueError` on an
empty sequence, otherwise a left fold keeping the current best unless the
next element compares strictly greater. -/
def py_max : List (Option ℚ) → Except PyErr (Option ℚ)
  | [] => Except.error PyErr.valueError
  | v :: vs => Except.ok (vs.foldl (fun best w => if opt_gt w best then w else best) v)

/-- Embeds `calculate_4h_volatility` (src/Martingel.py lines 22-25). -/
def calculate_4h_volatility (bars : List VBar) : Except PyErr (Option ℚ) :=
  py_max (bucket_values (last_day bars) 240)

/-- Embeds `calculate_1h_volatility` (src/Martingel.py lines 27-30). -/
def calculate_1h_volatility (bars : List VBar) : Except PyErr (Option ℚ) :=
  py_max (bucket_values (last_day bars) 60)

/-- Embeds `df["close"].rolling(w).mean()` at row `i`: the mean of the last `w`
closes, NaN (`none`) while fewer than `w` rows are available. -/
def roll_mean (w : ℕ) (closes : List ℚ) (i : ℕ) : Option ℚ :=
  if w ≤ i + 1 then some (((closes.drop (i + 1 - w)).take w).sum / (w : ℚ)) else none

/-- The `diff_5_10` column: `short_ma - medium_ma`, NaN-propagating. -/
def diff_5_10 (sw mw : ℕ) (closes : List ℚ) (i : ℕ) : Option ℚ :=
  match roll_mean sw closes i, roll_mean mw closes i with
  | some a, some b => some (a - b)
  | _, _ => none

/-- The MA-cross signal written in step 2 of `generate_signals`: rows with
`short_ma > long_ma` get 1, rows with `short_ma <= long_ma` get 0, and rows
where either MA is NaN match neither mask and keep the initial 0. -/
def base_signal (sw lw : ℕ) (closes : List ℚ) (i : ℕ) : ℕ :=
  if opt_gt (roll_mean sw closes i) (roll_mean lw closes i) then 1 else 0

/-- The `diff_sign` column `np.where(diff_5_10 > 0, 1, -1)`: NaN compares
false and yields -1. -/
def diff_sign (sw mw : ℕ) (closes : List ℚ) (i : ℕ) : ℤ :=
  match diff_5_10 sw mw closes i with
  | some d => if 0 < d then 1 else -1
  | none => -1

/-- Whether `sign_change = diff_sign * diff_sign.shift(1)` is negative at
row `i`; at row 0 the shifted factor is NaN, so the comparison is false. -/
def sign_flip (sw mw : ℕ) (closes : List ℚ) : ℕ → Bool
  | 0 => false
  | j + 1 => decide (diff_sign sw mw closes (j + 1) * diff_sign sw mw closes j < 0)

/-- The `wave_id` column: `(sign_change < 0).cumsum()`. -/
def wave_id (sw mw : ℕ) (closes : List ℚ) : ℕ → ℕ
  | 0 => 0
  | j + 1 => wave_id sw mw closes j + (if sign_flip sw mw closes (j + 1) then 1 else 0)

/-- The rows of the DataFrame belonging to wave `w`. -/
def wave_members (sw mw : ℕ) (closes : List ℚ) (w : ℕ) : List ℕ :=
  (List.range closes.length).filter (fun i => wave_id sw mw closes i = w)

/-- The groupby-apply `x.sum() / max(len(x), 1)`: pandas `sum()` skips NaN
(an all-NaN group sums to 0.0), while `len` counts every row of the wave. -/
def wave_strength (sw mw : ℕ) (closes : List ℚ) (w : ℕ) : ℚ :=
  ((wave_members sw mw closes w).map (fun i => (diff_5_10 sw mw closes i).getD 0)).sum /
    ((max (wave_members sw mw closes w).length 1 : ℕ) : ℚ)

/-- The `prev_wave_strength` column: `wave_strength.shift(1)`, the previous
ROW's merged wave strength (NaN at row 0). -/
def prev_row_strength (sw mw : ℕ) (closes : List ℚ) : ℕ → Option ℚ
  | 0 => none
  | j + 1 => some (wave_strength sw mw closes (wave_id sw mw closes j))

/-- Pandas `a < b` where the right side may be NaN: false against NaN. -/
def lt_opt (a : ℚ) : Option ℚ → Bool
  | some b => decide (a < b)
  | none => false

/-- The `condition_weaker` mask of step 4: still long, still sign-positive,
and the current wave strength below the previous row's. -/
def condition_weaker (sw mw lw : ℕ) (closes : List ℚ) (i : ℕ) : Bool :=
  decide (base_signal sw lw closes i = 1) &&
  decide (diff_sign sw mw closes i = 1) &&
  lt_opt (wave_strength sw mw closes (wave_id sw mw closes i))
    (prev_row_strength sw mw closes i)

/-- The final `signal` column: rows matched by `condition_weaker` are
flattened to 0, the rest keep the MA-cross signal. -/
def final_signal (sw mw lw : ℕ) (closes : List ℚ) (i : ℕ) : ℕ :=
  if condition_weaker sw mw lw closes i then 0 else base_signal sw lw closes i

/-- Modelled from the spec's words, for comparison with the code: the
strength of the immediately preceding WAVE (wave id minus one), none for
the first wave. -/
def spec_prev_wave_strength (sw mw : ℕ) (closes : List ℚ) (i : ℕ) : Option ℚ :=
  match wave_id sw mw closes i with
  | 0 => none
  | w + 1 => some (wave_strength sw mw closes w)

/-- Modelled from the spec's words, for comparison with the code: flip long
to flat exactly when still sign-positive and the current wave is weaker
than the immediately preceding wave. -/
def spec_divergence_exit (sw mw lw : ℕ) (closes : List ℚ) (i : ℕ) : Bool :=
  decide (base_signal sw lw closes i = 1) &&
  decide (diff_sign sw mw closes i = 1) &&
  lt_opt (wave_strength sw mw closes (wave_id sw mw closes i))
    (spec_prev_wave_strength sw mw closes i)

/-- Inversion for a successful `add_position`: the layer size exists, the
total is nonzero, and the new state is the weighted-average update. -/
lemma add_position_ok_iff (s : MState) (price : ℚ) (layer : ℕ) (s1 : MState) (sig : Int) :
    add_position s price layer = Except.ok (s1, sig) ↔
    ∃ a, s.position_list.get? layer = some a ∧ s.position + a ≠ 0 ∧
      s1 = { s with
              entry_price := (s.entry_price * s.position + price * a) / (s.position + a),
              position := s.position + a,
              current_layer := layer } ∧
      sig = (if s.direction = some TDir.long then 1 else -1) := by
  unfold add_position
  constructor
  · intro h
    split at h
    · exact absurd h (by simp)
    · rename_i a ha
      split at h
      · exact absurd h (by simp)
      · rename_i hnz
        refine ⟨a, ha, hnz, ?_, ?_⟩ <;> simp only [Except.ok.injEq, Prod.mk.injEq] at h
        · exact h.1.symm
        · exact h.2.symm
  · rintro ⟨a, ha, hnz, hs1, hsig⟩
    rw [ha]
    simp [hnz, hs1, hsig]

/-- Every successful step of the `run` loop leaves the state unchanged, or
applies the take-profit close, the liquidation close, or a layer add. -/
lemma run_step_ok_cases {s : MState} {bar : MBar} {w : List ℚ} {out : StepOut}
    (hstep : run_step s bar w = Except.ok out) :
    out.s = s ∨ out.s = take_profit_close s bar.close ∨ out.s = liquidation_close s ∨
    ∃ layer sig, add_position s bar.close layer = Except.ok (out.s, sig) := by
  unfold run_step at hstep
  by_cases hpos : s.position = 0
  · rw [if_pos hpos] at hstep
    cases hce : check_entry_condition s bar with
    | error e => simp only [hce] at hstep; exact absurd hstep (by simp)
    | ok b =>
      simp only [hce] at hstep
      cases b with
      | false =>
        simp only [Bool.false_eq_true, if_false, Except.ok.injEq] at hstep
        exact Or.inl (by rw [← hstep])
      | true =>
        simp only [if_true] at hstep
        cases hadd : add_position s bar.close 0 with
        | error e => simp only [hadd] at hstep; exact absurd hstep (by simp)
        | ok pr =>
          simp only [hadd] at hstep
          obtain ⟨s1, sig⟩ := pr
          simp only [Except.ok.injEq] at hstep
          exact Or.inr (Or.inr (Or.inr ⟨0, sig, by rw [← hstep]; exact hadd⟩))
  · rw [if_neg hpos] at hstep
    cases htp : check_take_profit s bar.close with
    | error e => simp only [htp] at hstep; exact absurd hstep (by simp)
    | ok tp =>
      simp only [htp] at hstep
      cases hsr1 : (if tp then check_slope_reversal w else Except.ok false) with
      | error e => simp only [hsr1] at hstep; exact absurd hstep (by simp)
      | ok sr1 =>
        simp only [hsr1] at hstep
        by_cases h1 : (tp && sr1) = true
        · rw [if_pos h1] at hstep
          simp only [Except.ok.injEq] at hstep
          exact Or.inr (Or.inl (by rw [← hstep]))
        · rw [if_neg h1] at hstep
          cases hsl : check_stop_loss s bar.close with
          | error e => simp only [hsl] at hstep; exact absurd hstep (by simp)
          | ok sl =>
            simp only [hsl] at hstep
            cases hsr2 : (if sl then check_slope_reversal w else Except.ok false) with
            | error e => simp only [hsr2] at hstep; exact absurd hstep (by simp)
            | ok sr2 =>
              simp only [hsr2] at hstep
              by_cases h2 : (sl && sr2) = true
              · rw [if_pos h2] at hstep
                by_cases h3 : (s.current_layer : ℤ) < (s.leverage_list.length : ℤ) - 1
                · rw [if_pos h3] at hstep
                  cases hadd : add_position s bar.close (s.current_layer + 1) with
                  | error e => simp only [hadd] at hstep; exact absurd hstep (by simp)
                  | ok pr =>
                    simp only [hadd] at hstep
                    obtain ⟨s1, sig⟩ := pr
                    simp only [Except.ok.injEq] at hstep
                    exact Or.inr (Or.inr (Or.inr
                      ⟨s.current_layer + 1, sig, by rw [← hstep]; exact hadd⟩))
                · rw [if_neg h3] at hstep
                  simp only [Except.ok.injEq] at hstep
                  exact Or.inr (Or.inr (Or.inl (by rw [← hstep])))
              · rw [if_neg h2] at hstep
                simp only [Except.ok.injEq] at hstep
                exact Or.inl (by rw [← hstep])

/-- The MA13 window `iloc[max(0, i-5) : i+1]` taken by `run` never holds more
than 6 values. -/
lemma window_length_le_six (ma : List ℚ) (i : ℕ) :
    ((ma.take (i + 1)).drop (i - 5)).length ≤ 6 := by
  simp only [List.length_drop, List.length_take]
  omega

/-- The check `check_slope_reversal` cannot confirm on a series of at most 6 values:
fewer than 6 returns `False`, exactly 6 raises `IndexError`. -/
lemma check_slope_reversal_short (l : List ℚ) (h : l.length ≤ 6) :
    check_slope_reversal l ≠ Except.ok true := by
  unfold check_slope_reversal
  rcases lt_or_eq_of_le h with h6 | h6
  · simp [h6]
  · simp [h6]

/-- A successful step over a window of at most 6 MA values never takes the
liquidation `break`: the branch is gated by a slope-reversal confirmation
that such a window cannot produce. -/
lemma run_step_no_brk {s : MState} {bar : MBar} {w : List ℚ} {out : StepOut}
    (hw : w.length ≤ 6) (hstep : run_step s bar w = Except.ok out) :
    out.brk = false := by
  unfold run_step at hstep
  by_cases hpos : s.position = 0
  · rw [if_pos hpos] at hstep
    cases hce : check_entry_condition s bar with
    | error e => simp only [hce] at hstep; exact absurd hstep (by simp)
    | ok b =>
      simp only [hce] at hstep
      cases b with
      | false =>
        simp only [Bool.false_eq_true, if_false, Except.ok.injEq] at hstep
        rw [← hstep]
      | true =>
        simp only [if_true] at hstep
        cases hadd : add_position s bar.close 0 with
        | error e => simp only [hadd] at hstep; exact absurd hstep (by simp)
        | ok pr =>
          simp only [hadd] at hstep
          obtain ⟨s1, sig⟩ := pr
          simp only [Except.ok.injEq] at hstep
          rw [← hstep]
  · rw [if_neg hpos] at hstep
    cases htp : check_take_profit s bar.close with
    | error e => simp only [htp] at hstep; exact absurd hstep (by simp)
    | ok tp =>
      simp only [htp] at hstep
      cases hsr1 : (if tp then check_slope_reversal w else Except.ok false) with
      | error e => simp only [hsr1] at hstep; exact absurd hstep (by simp)
      | ok sr1 =>
        simp only [hsr1] at hstep
        by_cases h1 : (tp && sr1) = true
        · rw [if_pos h1] at hstep
          simp only [Except.ok.injEq] at hstep
          rw [← hstep]
        · rw [if_neg h1] at hstep
          cases hsl : check_stop_loss s bar.close with
          | error e => simp only [hsl] at hstep; exact absurd hstep (by simp)
          | ok sl =>
            simp only [hsl] at hstep
            cases hsr2 : (if sl then check_slope_reversal w else Except.ok false) with
            | error e => simp only [hsr2] at hstep; exact absurd hstep (by simp)
            | ok sr2 =>
              simp only [hsr2] at hstep
              by_cases h2 : (sl && sr2) = true
              · exfalso
                rcases Bool.and_eq_true_iff.mp h2 with ⟨hsl2, hsr2t⟩
                subst hsl2
                rw [if_pos rfl] at hsr2
                subst hsr2t
                exact check_slope_reversal_short w hw hsr2
              · rw [if_neg h2] at hstep
                simp only [Except.ok.injEq] at hstep
                rw [← hstep]

/-- Per-step preservation of a state predicate, derived from the case split:
it suffices that the predicate survives the two close blocks and any
successful `add_position`. -/
lemma run_step_preserve (P : MState → Prop)
    (htp : ∀ s p, P s → P (take_profit_close s p))
    (hliq : ∀ s, P s → P (liquidation_close s))
    (hadd : ∀ s p layer s1 sig, P s → add_position s p layer = Except.ok (s1, sig) → P s1) :
    ∀ s bar w out, P s → run_step s bar w = Except.ok out → P out.s := by
  intro s bar w out hP hstep
  rcases run_step_ok_cases hstep with h | h | h | ⟨layer, sig, h⟩
  · rw [h]; exact hP
  · rw [h]; exact htp s bar.close hP
  · rw [h]; exact hliq s hP
  · exact hadd s bar.close layer out.s sig hP h

/-- A predicate preserved by every successful step holds at every state of
the run trace. -/
lemma run_aux_trace_preserve (P : MState → Prop)
    (hstep : ∀ s bar w out, P s → run_step s bar w = Except.ok out → P out.s) :
    ∀ (bars : List MBar) (s : MState) (ma : List ℚ) (i : ℕ), P s →
      ∀ σ' ∈ (run_aux s ma bars i).trace, P σ' := by
  intro bars
  induction bars with
  | nil => intro s ma i hP σ' hmem; simp [run_aux] at hmem
  | cons bar rest ih =>
    intro s ma i hP σ' hmem
    unfold run_aux at hmem
    cases hst : run_step s bar ((ma.take (i + 1)).drop (i - 5)) with
    | error e => simp [hst] at hmem
    | ok out =>
      simp only [hst] at hmem
      have hout : P out.s := hstep s bar _ out hP hst
      by_cases hbrk : out.brk = true
      · simp only [hbrk, if_true, List.mem_singleton] at hmem
        rw [hmem]; exact hout
      · simp only [Bool.not_eq_true] at hbrk
        simp only [hbrk, Bool.false_eq_true, if_false, List.mem_cons] at hmem
        rcases hmem with h | h
        · rw [h]; exact hout
        · exact ih out.s ma (i + 1) hout σ' h

/-- The liquidation `break` can never execute: every window `run` builds has
at most 6 values, so the gating slope-reversal confirmation never returns
`True`. -/
lemma run_aux_never_brk :
    ∀ (bars : List MBar) (s : MState) (ma : List ℚ) (i : ℕ),
      (run_aux s ma bars i).brk = false := by
  intro bars
  induction bars with
  | nil => intro s ma i; simp [run_aux]
  | cons bar rest ih =>
    intro s ma i
    unfold run_aux
    cases hst : run_step s bar ((ma.take (i + 1)).drop (i - 5)) with
    | error e => simp [hst]
    | ok out =>
      have hb : out.brk = false := run_step_no_brk (window_length_le_six ma i) hst
      simp only [hst, hb, Bool.false_eq_true, if_false]
      exact ih out.s ma (i + 1)

/-- C1: contrary to the claim, the engine never opens a position while flat.
With volatility `x = 2% > 1%` and `MA13 = 2 > MA120 = 1` at close 100 the
entry condition still returns `False` (the mis-indented `return False` on
line 35 of src/Martingel.py fires before the MA-cross logic), so a run over
that bar writes no `open_signal` and leaves the state flat; with
`x <= 1%` the entry check instead raises `NameError` on the undefined
name `i`. -/
theorem c1_entry_branch_never_opens :
    check_entry_condition (mk_init (1/50) (1/100) [1, 2] [1/2, 1/2]) ⟨100, 2, 1⟩ =
      Except.ok false ∧
    check_entry_condition (mk_init (1/100) (1/100) [1, 2] [1/2, 1/2]) ⟨100, 2, 1⟩ =
      Except.error PyErr.nameError ∧
    (strategy_run (mk_init (1/50) (1/100) [1, 2] [1/2, 1/2]) [⟨100, 2, 1⟩]).openSigs = [] ∧
    (strategy_run (mk_init (1/50) (1/100) [1, 2] [1/2, 1/2]) [⟨100, 2, 1⟩]).s =
      mk_init (1/50) (1/100) [1, 2] [1/2, 1/2] := by
  refine ⟨?_, ?_, ?_, ?_⟩ <;>
    norm_num [check_entry_condition, strategy_run, run_aux, run_step, mk_init]

/-- C2: contrary to the claim, `check_slope_reversal` is not total on 6 bars
of MA history: a series of exactly 6 values (the size of every window
`run` passes once `i >= 5`) raises `IndexError` on the `iloc[-7]` access;
only from 7 values on does it return the sign-product comparison. -/
theorem c2_slope_reversal_needs_seven :
    check_slope_reversal ([1, 2, 3, 4, 5, 6] : List ℚ) = Except.error PyErr.indexError ∧
    (∀ l : List ℚ, l.length = 6 → check_slope_reversal l = Except.error PyErr.indexError) ∧
    (∀ l : List ℚ, 7 ≤ l.length → check_slope_reversal l =
      Except.ok (decide
        ((l.getD (l.length - 1) 0 - l.getD (l.length - 6) 0) *
         (l.getD (l.length - 2) 0 - l.getD (l.length - 7) 0) < 0))) := by
  refine ⟨?_, ?_, ?_⟩
  · norm_num [check_slope_reversal]
  · intro l hl
    unfold check_slope_reversal
    rw [hl]
    norm_num
  · intro l hl
    unfold check_slope_reversal
    rw [if_neg (by omega), if_neg (by omega)]

theorem c2_slope_reversal_needs_seven_witness :
    check_slope_reversal ([0, 0, 0, 0, 0, 0] : List ℚ) = Except.error PyErr.indexError ∧
    check_slope_reversal ([0, 0, 0, 0, 0, 0, 0] : List ℚ) =
      Except.ok (decide
        ((([0, 0, 0, 0, 0, 0, 0] : List ℚ).getD 6 0 - ([0, 0, 0, 0, 0, 0, 0] : List ℚ).getD 1 0) *
         (([0, 0, 0, 0, 0, 0, 0] : List ℚ).getD 5 0 - ([0, 0, 0, 0, 0, 0, 0] : List ℚ).getD 0 0) < 0)) :=
  ⟨c2_slope_reversal_needs_seven.2.1 [0, 0, 0, 0, 0, 0] rfl,
   c2_slope_reversal_needs_seven.2.2 [0, 0, 0, 0, 0, 0, 0] (by norm_num)⟩

/-- C4: contrary to the claim, the realized amount is not signed by the
direction.  At a genuine short-side take-profit state (direction short,
entry 100, close 90, so `check_take_profit` returns `True` and the
direction-signed profit is `entry - price = +10`), the close block adds the
raw `price - entry = -10` to `total_profit`. -/
theorem c4_take_profit_realization_unsigned :
    check_take_profit ⟨1/50, 1/100, [1], [1], 1, 100, 0, 0, 0, some TDir.short⟩ 90 =
      Except.ok true ∧
    (take_profit_close ⟨1/50, 1/100, [1], [1], 1, 100, 0, 0, 0, some TDir.short⟩ 90).total_profit
      = -10 ∧
    (100 : ℚ) - 90 = 10 := by
  refine ⟨?_, ?_, by norm_num⟩
  · norm_num [check_take_profit, calculate_take_profit,
      show (TDir.short = TDir.long) = False from eq_false (by simp)]
  · norm_num [take_profit_close]

/-- Fields of the state that a successful `add_position` never touches. -/
lemma add_position_untouched {s : MState} {price : ℚ} {layer : ℕ} {s1 : MState} {sig : Int}
    (h : add_position s price layer = Except.ok (s1, sig)) :
    s1.direction = s.direction ∧ s1.total_loss = s.total_loss ∧
    s1.position_list = s.position_list := by
  rcases (add_position_ok_iff s price layer s1 sig).mp h with ⟨a, _, _, hs1, _⟩
  rw [hs1]
  exact ⟨rfl, rfl, rfl⟩

/-- C5 counterexample: at a genuine long take-profit state (the take-profit
check returns `True`), the close block zeroes `position` but leaves
`direction = long`, so the claimed full reset to `direction = none` (and the
implication `position = 0 → direction = none`) fails on this state. -/
theorem c5_close_keeps_direction_counterexample :
    check_take_profit ⟨1/50, 1/100, [1], [1], 1, 100, 0, 0, 0, some TDir.long⟩ 110 =
      Except.ok true ∧
    (take_profit_close ⟨1/50, 1/100, [1], [1], 1, 100, 0, 0, 0, some TDir.long⟩ 110).position
      = 0 ∧
    (take_profit_close ⟨1/50, 1/100, [1], [1], 1, 100, 0, 0, 0, some TDir.long⟩ 110).direction
      = some TDir.long := by
  refine ⟨?_, ?_, ?_⟩
  · norm_num [check_take_profit, calculate_take_profit]
  · norm_num [take_profit_close]
  · norm_num [take_profit_close]

/-- C5 amended: both close blocks reset `position` and `current_layer` to 0
but leave `direction` unchanged rather than clearing it to none; in every
run started from the `__init__` state the weaker implication still holds,
because `direction` is in fact never assigned (it stays `none` at every
processed bar). -/
theorem c5_reset_without_direction :
    (∀ (s : MState) (p : ℚ), (take_profit_close s p).position = 0 ∧
      (take_profit_close s p).current_layer = 0 ∧
      (take_profit_close s p).direction = s.direction) ∧
    (∀ s : MState, (liquidation_close s).position = 0 ∧
      (liquidation_close s).current_layer = 0 ∧
      (liquidation_close s).direction = s.direction) ∧
    (∀ (x y : ℚ) (lev pos : List ℚ) (bars : List MBar),
      ∀ σ' ∈ (strategy_run (mk_init x y lev pos) bars).trace, σ'.direction = none) := by
  refine ⟨fun s p => ⟨rfl, rfl, rfl⟩, fun s => ⟨rfl, rfl, rfl⟩, ?_⟩
  intro x y lev pos bars σ' hmem
  have hpre := run_step_preserve (fun s => s.direction = none)
    (fun s p h => by simpa [take_profit_close] using h)
    (fun s h => by simpa [liquidation_close] using h)
    (fun s p layer s1 sig h hadd => by
      show s1.direction = none
      rw [(add_position_untouched hadd).1]; exact h)
  exact run_aux_trace_preserve _ hpre bars _ _ 0 rfl σ' hmem

theorem c5_reset_without_direction_witness :
    (mk_init 1 1 [1] [1]).direction = none :=
  c5_reset_without_direction.2.2 1 1 [1] [1] [⟨100, 0, 0⟩] (mk_init 1 1 [1] [1])
    (by norm_num [strategy_run, run_aux, run_step, check_entry_condition, mk_init])

/-- C10: `total_loss` is initialised to 0 and never written by any operation
of the engine, so after every processed bar it is still 0 and the
cumulative-loss disjunct `total_loss >= 0.5` of `check_stop_loss` compares
against 0 and can never be the reason the check fires. -/
theorem c10_total_loss_never_written (x y : ℚ) (lev pos : List ℚ) (bars : List MBar) :
    ∀ σ' ∈ (strategy_run (mk_init x y lev pos) bars).trace,
      σ'.total_loss = 0 ∧ ¬ ((1 : ℚ)/2 ≤ σ'.total_loss) := by
  intro σ' hmem
  have hpre := run_step_preserve (fun s => s.total_loss = 0)
    (fun s p h => by simpa [take_profit_close] using h)
    (fun s h => by simpa [liquidation_close] using h)
    (fun s p layer s1 sig h hadd => by
      show s1.total_loss = 0
      rw [(add_position_untouched hadd).2.1]; exact h)
  have h0 : σ'.total_loss = 0 :=
    run_aux_trace_preserve _ hpre bars _ _ 0 rfl σ' hmem
  exact ⟨h0, by rw [h0]; norm_num⟩

theorem c10_total_loss_never_written_witness :
    (mk_init 2 2 [1] [1]).total_loss = 0 ∧ ¬ ((1 : ℚ)/2 ≤ (mk_init 2 2 [1] [1]).total_loss) :=
  c10_total_loss_never_written 2 2 [1] [1] [⟨100, 0, 0⟩] (mk_init 2 2 [1] [1])
    (by norm_num [strategy_run, run_aux, run_step, check_entry_condition, mk_init])

/-- C9: with a layer schedule of strictly positive sizes, `position >= 0`
holds after every processed bar: it starts at 0, every add increases it by
a positive `position_list` entry, and both close blocks reset it to 0. -/
theorem c9_position_nonneg (x y : ℚ) (lev pos : List ℚ) (bars : List MBar)
    (hpos : ∀ q ∈ pos, 0 < q) :
    ∀ σ' ∈ (strategy_run (mk_init x y lev pos) bars).trace, 0 ≤ σ'.position := by
  intro σ' hmem
  have hpre := run_step_preserve
    (fun s => (∀ q ∈ s.position_list, 0 < q) ∧ 0 ≤ s.position)
    (fun s p h => ⟨by simpa [take_profit_close] using h.1, by simp [take_profit_close]⟩)
    (fun s h => ⟨by simpa [liquidation_close] using h.1, by simp [liquidation_close]⟩)
    (fun s p layer s1 sig h hadd => by
      rcases (add_position_ok_iff s p layer s1 sig).mp hadd with ⟨a, hget, hnz, hs1, _⟩
      have ha : 0 < a := h.1 a (List.get?_mem hget)
      constructor
      · rw [hs1]; exact h.1
      · rw [hs1]; exact add_nonneg h.2 (le_of_lt ha))
  exact (run_aux_trace_preserve _ hpre bars _ _ 0 ⟨hpos, le_refl 0⟩ σ' hmem).2

theorem c9_position_nonneg_witness :
    0 ≤ (mk_init 3 3 [1] [1]).position :=
  c9_position_nonneg 3 3 [1] [1] [⟨100, 0, 0⟩] (by norm_num) (mk_init 3 3 [1] [1])
    (by norm_num [strategy_run, run_aux, run_step, check_entry_condition, mk_init])

/-- C3: contrary to the claim, a run can never terminate through the forced
liquidation: the break is gated by a slope-reversal confirmation that no
window `run` builds (at most 6 MA values) can produce, so `brk` is `false`
for every start state and bar sequence.  Where the spec expects a
liquidation (open long at entry 100 on the last layer, price halved at bar
5 with loss 50% >= the stop target), the run instead aborts with the
`IndexError` of `check_slope_reversal` and marks no close. -/
theorem c3_liquidation_never_happens :
    (∀ (s : MState) (bars : List MBar), (strategy_run s bars).brk = false) ∧
    (strategy_run ⟨1/50, 1/100, [1], [1], 1, 100, 0, 0, 0, some TDir.long⟩
        [⟨100, 0, 0⟩, ⟨100, 0, 0⟩, ⟨100, 0, 0⟩, ⟨100, 0, 0⟩, ⟨100, 0, 0⟩,
         ⟨50, 0, 0⟩, ⟨50, 0, 0⟩]).halted = some PyErr.indexError ∧
    (strategy_run ⟨1/50, 1/100, [1], [1], 1, 100, 0, 0, 0, some TDir.long⟩
        [⟨100, 0, 0⟩, ⟨100, 0, 0⟩, ⟨100, 0, 0⟩, ⟨100, 0, 0⟩, ⟨100, 0, 0⟩,
         ⟨50, 0, 0⟩, ⟨50, 0, 0⟩]).closeSigs = [] := by
  refine ⟨fun s bars => run_aux_never_brk bars s _ 0, ?_, ?_⟩ <;>
    norm_num [strategy_run, run_aux, run_step, check_take_profit, check_stop_loss,
      calculate_take_profit, calculate_stop_loss, check_slope_reversal]

/-- Invariant of the add sequence: with positive layer sizes the adds all
succeed, the position accumulates the layer sizes, and
`entry_price * position` accumulates the price-weighted layer sizes. -/
lemma add_seq_spec (ps : List ℚ) :
    ∀ (s : MState) (k : ℕ),
      (∀ q ∈ s.position_list, 0 < q) → 0 ≤ s.position →
      k + ps.length ≤ s.position_list.length →
      ∃ s', add_seq s ps k = Except.ok s' ∧
        s'.position = s.position + ((s.position_list.drop k).take ps.length).sum ∧
        s'.entry_price * s'.position =
          s.entry_price * s.position +
            (List.zipWith (fun p a => p * a) ps ((s.position_list.drop k).take ps.length)).sum ∧
        s'.position_list = s.position_list := by
  induction ps with
  | nil =>
    intro s k hpos h0 hlen
    exact ⟨s, rfl, by simp, by simp, rfl⟩
  | cons p ps ih =>
    intro s k hpos h0 hlen
    have hk : k < s.position_list.length := by
      simp only [List.length_cons] at hlen; omega
    have hget : s.position_list.get? k = some (s.position_list.get ⟨k, hk⟩) :=
      List.get?_eq_get hk
    have ha : 0 < s.position_list.get ⟨k, hk⟩ :=
      hpos _ (List.get?_mem hget)
    have hnz : s.position + s.position_list.get ⟨k, hk⟩ ≠ 0 :=
      (add_pos_of_nonneg_of_pos h0 ha).ne'
    have hadd : add_position s p k = Except.ok
        ({ s with
            entry_price := (s.entry_price * s.position + p * s.position_list.get ⟨k, hk⟩) /
              (s.position + s.position_list.get ⟨k, hk⟩),
            position := s.position + s.position_list.get ⟨k, hk⟩,
            current_layer := k },
          if s.direction = some TDir.long then 1 else -1) :=
      (add_position_ok_iff s p k _ _).mpr ⟨s.position_list.get ⟨k, hk⟩, hget, hnz, rfl, rfl⟩
    obtain ⟨s2, hrun, hpos2, hent2, hlist2⟩ := ih
      { s with
          entry_price := (s.entry_price * s.position + p * s.position_list.get ⟨k, hk⟩) /
            (s.position + s.position_list.get ⟨k, hk⟩),
          position := s.position + s.position_list.get ⟨k, hk⟩,
          current_layer := k }
      (k + 1)
      (by intro q hq; exact hpos q hq)
      (add_nonneg h0 ha.le)
      (by
        show k + 1 + ps.length ≤ s.position_list.length
        simp only [List.length_cons] at hlen
        omega)
    have hdropk : s.position_list.drop k =
        s.position_list.get ⟨k, hk⟩ :: s.position_list.drop (k + 1) :=
      List.drop_eq_get_cons hk
    refine ⟨s2, ?_, ?_, ?_, ?_⟩
    · show add_seq s (p :: ps) k = Except.ok s2
      simp only [add_seq, hadd]
      exact hrun
    · rw [hpos2]
      show s.position + s.position_list.get ⟨k, hk⟩ +
          ((s.position_list.drop (k + 1)).take ps.length).sum =
        s.position + ((s.position_list.drop k).take (p :: ps).length).sum
      rw [hdropk]
      simp only [List.length_cons, List.take_succ_cons, List.sum_cons]
      ring
    · rw [hent2]
      show (s.entry_price * s.position + p * s.position_list.get ⟨k, hk⟩) /
            (s.position + s.position_list.get ⟨k, hk⟩) *
            (s.position + s.position_list.get ⟨k, hk⟩) +
          (List.zipWith (fun p a => p * a) ps
            ((s.position_list.drop (k + 1)).take ps.length)).sum =
        s.entry_price * s.position +
          (List.zipWith (fun p a => p * a) (p :: ps)
            ((s.position_list.drop k).take (p :: ps).length)).sum
      rw [div_mul_cancel₀ _ hnz, hdropk]
      simp only [List.length_cons, List.take_succ_cons, List.zipWith_cons_cons, List.sum_cons]
      ring
    · rw [hlist2]

/-- C8 counterexample: there is no fail-fast guard on non-positive layer
sizes.  With `position_list = [-2]` the very first add computes silently:
it returns success with `position = -2` and no error of any kind, instead
of the claimed `InvalidLayerConfigError` (no such error exists anywhere in
src/Martingel.py). -/
theorem c8_no_guard_counterexample :
    add_position ⟨1/50, 1/100, [1], [-2], 0, 0, 0, 0, 0, none⟩ 100 0 =
      Except.ok (⟨1/50, 1/100, [1], [-2], -2, 100, 0, 0, 0, none⟩, -1) := by
  norm_num [add_position]
  simp

/-- C8 amended: every successful add updates `entry_price` to
`(e*q + p*a)/(q + a)` exactly, and from a flat start with strictly positive
layer sizes the entry price after any sequence of adds equals the
position-weighted average of the layer entry prices; but there is no
`InvalidLayerConfigError` guard — a non-positive size is simply used
(see the counterexample; a zero total instead raises `ZeroDivisionError`). -/
theorem c8_entry_price_weighted_average :
    (∀ (s : MState) (price : ℚ) (layer : ℕ) (a : ℚ),
        s.position_list.get? layer = some a → s.position + a ≠ 0 →
        add_position s price layer = Except.ok
          ({ s with
              entry_price := (s.entry_price * s.position + price * a) / (s.position + a),
              position := s.position + a,
              current_layer := layer },
            if s.direction = some TDir.long then 1 else -1)) ∧
    (∀ (x y : ℚ) (lev pos ps : List ℚ),
        (∀ q ∈ pos, 0 < q) → ps ≠ [] → ps.length ≤ pos.length →
        ∃ s', add_seq (mk_init x y lev pos) ps 0 = Except.ok s' ∧
          s'.position = (pos.take ps.length).sum ∧
          0 < (pos.take ps.length).sum ∧
          s'.entry_price =
            (List.zipWith (fun p a => p * a) ps (pos.take ps.length)).sum /
              (pos.take ps.length).sum) := by
  constructor
  · intro s price layer a hget hnz
    exact (add_position_ok_iff s price layer _ _).mpr ⟨a, hget, hnz, rfl, rfl⟩
  · intro x y lev pos ps hpos hne hlen
    obtain ⟨s', hrun, hp, he, _⟩ :=
      add_seq_spec ps (mk_init x y lev pos) 0 hpos (le_refl 0) (by simpa using hlen)
    have hT : 0 < (pos.take ps.length).sum := by
      apply List.sum_pos
      · intro q hq; exact hpos q (List.take_subset _ _ hq)
      · have hlp : 0 < ps.length := List.length_pos.mpr hne
        have : 0 < (pos.take ps.length).length := by
          rw [List.length_take]
          omega
        exact List.ne_nil_of_length_pos this
    have hp0 : s'.position = (pos.take ps.length).sum := by
      rw [hp]; show (0 : ℚ) + ((pos.drop 0).take ps.length).sum = _
      simp
    have he0 : s'.entry_price * (pos.take ps.length).sum =
        (List.zipWith (fun p a => p * a) ps (pos.take ps.length)).sum := by
      rw [← hp0, he]
      show (0 : ℚ) * 0 + (List.zipWith (fun p a => p * a) ps ((pos.drop 0).take ps.length)).sum = _
      simp
    refine ⟨s', hrun, hp0, hT, ?_⟩
    rw [eq_div_iff hT.ne']
    exact he0

theorem c8_entry_price_weighted_average_witness :
    ∃ s', add_seq (mk_init 0 0 [1, 2] [1, 2]) [100, 110] 0 = Except.ok s' ∧
      s'.position = (([1, 2] : List ℚ).take 2).sum ∧
      0 < (([1, 2] : List ℚ).take 2).sum ∧
      s'.entry_price =
        (List.zipWith (fun p a => p * a) ([100, 110] : List ℚ)
          (([1, 2] : List ℚ).take 2)).sum / (([1, 2] : List ℚ).take 2).sum :=
  c8_entry_price_weighted_average.2 0 0 [1, 2] [1, 2] [100, 110]
    (by intro q hq; fin_cases hq <;> norm_num) (by simp) (by norm_num)

/-- Unfolding equation of `py_max` on a nonempty series. -/
lemma py_max_cons (v : Option ℚ) (vs : List (Option ℚ)) :
    py_max (v :: vs) =
      Except.ok (vs.foldl (fun best w => if opt_gt w best then w else best) v) := rfl

lemma foldl_min_le {α : Type} [LinearOrder α] :
    ∀ (l : List α) (x : α), l.foldl min x ≤ x ∧ ∀ y ∈ l, l.foldl min x ≤ y := by
  intro l
  induction l with
  | nil => intro x; exact ⟨le_refl x, by intro y hy; cases hy⟩
  | cons a l ih =>
    intro x
    refine ⟨(ih (min x a)).1.trans (min_le_left x a), ?_⟩
    intro y hy
    rcases List.mem_cons.mp hy with h | h
    · rw [h]; exact (ih (min x a)).1.trans (min_le_right x a)
    · exact (ih (min x a)).2 y h

lemma foldl_min_mem {α : Type} [LinearOrder α] :
    ∀ (l : List α) (x : α), l.foldl min x = x ∨ l.foldl min x ∈ l := by
  intro l
  induction l with
  | nil => intro x; exact Or.inl rfl
  | cons a l ih =>
    intro x
    rcases ih (min x a) with h | h
    · rcases min_choice x a with hm | hm
      · exact Or.inl (by rw [List.foldl_cons, h, hm])
      · exact Or.inr (by rw [List.foldl_cons, h, hm]; exact List.mem_cons_self a l)
    · exact Or.inr (List.mem_cons_of_mem a h)

lemma foldl_max_ge {α : Type} [LinearOrder α] :
    ∀ (l : List α) (x : α), x ≤ l.foldl max x ∧ ∀ y ∈ l, y ≤ l.foldl max x := by
  intro l
  induction l with
  | nil => intro x; exact ⟨le_refl x, by intro y hy; cases hy⟩
  | cons a l ih =>
    intro x
    refine ⟨(le_max_left x a).trans (ih (max x a)).1, ?_⟩
    intro y hy
    rcases List.mem_cons.mp hy with h | h
    · rw [h]; exact (le_max_right x a).trans (ih (max x a)).1
    · exact (ih (max x a)).2 y h

/-- Any value a nonempty bucket aggregates to is nonnegative when every row
has `0 < low <= high`. -/
lemma bucket_range_value_nonneg (bars : List VBar) (m b : ℕ)
    (hwf : ∀ r ∈ bars, 0 < r.low ∧ r.low ≤ r.high) :
    ∀ u, bucket_range_value bars m b = some u → 0 ≤ u := by
  intro u hu
  unfold bucket_range_value at hu
  cases hg : bucket_rows bars m b with
  | nil => rw [hg] at hu; exact absurd hu (by simp)
  | cons r rs =>
    rw [hg] at hu
    simp only [Option.some.injEq] at hu
    have hsub : ∀ q ∈ r :: rs, 0 < q.low ∧ q.low ≤ q.high := by
      intro q hq
      have hq2 : q ∈ bucket_rows bars m b := by rw [hg]; exact hq
      unfold bucket_rows at hq2
      exact hwf q (List.mem_of_mem_filter hq2)
    have hLmem : qfold_min r.low (rs.map (fun q => q.low)) = r.low ∨
        qfold_min r.low (rs.map (fun q => q.low)) ∈ rs.map (fun q => q.low) :=
      foldl_min_mem _ _
    have hLrow : ∃ q0, q0 ∈ r :: rs ∧ q0.low = qfold_min r.low (rs.map (fun q => q.low)) := by
      rcases hLmem with h | h
      · exact ⟨r, List.mem_cons_self r rs, h.symm⟩
      · rcases List.mem_map.mp h with ⟨q0, hq0, hq0l⟩
        exact ⟨q0, List.mem_cons_of_mem r hq0, hq0l⟩
    obtain ⟨q0, hq0mem, hq0low⟩ := hLrow
    have hLpos : 0 < qfold_min r.low (rs.map (fun q => q.low)) := by
      rw [← hq0low]; exact (hsub q0 hq0mem).1
    have hHge : qfold_min r.low (rs.map (fun q => q.low)) ≤
        qfold_max r.high (rs.map (fun q => q.high)) := by
      have h1 : q0.high ≤ qfold_max r.high (rs.map (fun q => q.high)) := by
        rcases List.mem_cons.mp hq0mem with h | h
        · rw [h]; exact (foldl_max_ge _ _).1
        · exact (foldl_max_ge (rs.map (fun q => q.high)) r.high).2 q0.high
            (List.mem_map.mpr ⟨q0, h, rfl⟩)
      calc qfold_min r.low (rs.map (fun q => q.low)) = q0.low := hq0low.symm
        _ ≤ q0.high := (hsub q0 hq0mem).2
        _ ≤ _ := h1
    rw [← hu]
    exact div_nonneg (by linarith) hLpos.le

/-- Python's `max` fold from a real (non-NaN) start returns a real value
that is the running maximum: NaN entries never replace the best, and a real
entry replaces it only when strictly greater. -/
lemma py_max_fold (vs : List (Option ℚ)) :
    ∀ w : ℚ, ∃ z, vs.foldl (fun best x => if opt_gt x best then x else best) (some w) =
        some z ∧ (z = w ∨ some z ∈ vs) ∧ w ≤ z ∧ ∀ u, some u ∈ vs → u ≤ z := by
  induction vs with
  | nil =>
    intro w
    exact ⟨w, rfl, Or.inl rfl, le_refl w, by intro u hu; cases hu⟩
  | cons v vs ih =>
    intro w
    cases v with
    | none =>
      obtain ⟨z, hz, hmem, hle, hub⟩ := ih w
      refine ⟨z, ?_, ?_, hle, ?_⟩
      · simpa [opt_gt] using hz
      · rcases hmem with h | h
        · exact Or.inl h
        · exact Or.inr (List.mem_cons_of_mem _ h)
      · intro u hu
        rcases List.mem_cons.mp hu with h | h
        · exact absurd h (by simp)
        · exact hub u h
    | some a =>
      by_cases hlt : w < a
      · obtain ⟨z, hz, hmem, hle, hub⟩ := ih a
        refine ⟨z, ?_, ?_, hlt.le.trans hle, ?_⟩
        · simpa [opt_gt, hlt] using hz
        · rcases hmem with h | h
          · exact Or.inr (by rw [h]; exact List.mem_cons_self _ _)
          · exact Or.inr (List.mem_cons_of_mem _ h)
        · intro u hu
          rcases List.mem_cons.mp hu with h | h
          · simp only [Option.some.injEq] at h; rw [h]; exact hle
          · exact hub u h
      · obtain ⟨z, hz, hmem, hle, hub⟩ := ih w
        refine ⟨z, ?_, ?_, hle, ?_⟩
        · simpa [opt_gt, hlt] using hz
        · rcases hmem with h | h
          · exact Or.inl h
          · exact Or.inr (List.mem_cons_of_mem _ h)
        · intro u hu
          rcases List.mem_cons.mp hu with h | h
          · simp only [Option.some.injEq] at h
            rw [h]
            exact le_trans (not_lt.mp hlt) hle
          · exact hub u h

lemma last_day_ne_nil {bars : List VBar} (hne : bars ≠ []) : last_day bars ≠ [] := by
  unfold last_day
  apply List.ne_nil_of_length_pos
  rw [List.length_drop]
  have : 0 < bars.length := List.length_pos.mpr hne
  omega

/-- On any nonempty, well-formed window the resample-max computation
succeeds with a nonnegative real value that is the maximum over the
occupied buckets (NaN gap buckets are ignored by the comparison fold). -/
lemma volatility_core (bars : List VBar) (m : ℕ) (hne : bars ≠ [])
    (hwf : ∀ r ∈ bars, 0 < r.low ∧ r.low ≤ r.high) :
    ∃ v, py_max (bucket_values bars m) = Except.ok (some v) ∧ 0 ≤ v ∧
      some v ∈ bucket_values bars m ∧
      ∀ u, some u ∈ bucket_values bars m → u ≤ v := by
  obtain ⟨r, rs, rfl⟩ := List.exists_cons_of_ne_nil hne
  have hminmax : (rs.map (fun q => q.ts / m)).foldl min (r.ts / m) ≤
      (rs.map (fun q => q.ts / m)).foldl max (r.ts / m) :=
    le_trans (foldl_min_le _ _).1 (foldl_max_ge _ _).1
  have hrow : ∃ q0, q0 ∈ r :: rs ∧
      q0.ts / m = (rs.map (fun q => q.ts / m)).foldl min (r.ts / m) := by
    rcases foldl_min_mem (rs.map (fun q => q.ts / m)) (r.ts / m) with h | h
    · exact ⟨r, List.mem_cons_self r rs, h.symm⟩
    · rcases List.mem_map.mp h with ⟨q0, hq0, he⟩
      exact ⟨q0, List.mem_cons_of_mem _ hq0, he⟩
  have hfirst : ∃ w0, bucket_range_value (r :: rs) m
      ((rs.map (fun q => q.ts / m)).foldl min (r.ts / m)) = some w0 := by
    obtain ⟨q0, hq0m, hq0b⟩ := hrow
    have hq0f : q0 ∈ bucket_rows (r :: rs) m
        ((rs.map (fun q => q.ts / m)).foldl min (r.ts / m)) := by
      unfold bucket_rows
      exact List.mem_filter.mpr ⟨hq0m, by simpa using hq0b⟩
    unfold bucket_range_value
    cases hg : bucket_rows (r :: rs) m
        ((rs.map (fun q => q.ts / m)).foldl min (r.ts / m)) with
    | nil => rw [hg] at hq0f; cases hq0f
    | cons a as => exact ⟨_, rfl⟩
  obtain ⟨w0, hw0⟩ := hfirst
  obtain ⟨k, hkeq⟩ : ∃ k, (rs.map (fun q => q.ts / m)).foldl max (r.ts / m) + 1 -
      (rs.map (fun q => q.ts / m)).foldl min (r.ts / m) = k + 1 :=
    ⟨(rs.map (fun q => q.ts / m)).foldl max (r.ts / m) -
      (rs.map (fun q => q.ts / m)).foldl min (r.ts / m), by omega⟩
  have hbv : bucket_values (r :: rs) m =
      some w0 :: (List.range k).map (fun j => bucket_range_value (r :: rs) m
        ((rs.map (fun q => q.ts / m)).foldl min (r.ts / m) + (j + 1))) := by
    show (List.range ((rs.map (fun q => q.ts / m)).foldl max (r.ts / m) + 1 -
        (rs.map (fun q => q.ts / m)).foldl min (r.ts / m))).map
          (fun j => bucket_range_value (r :: rs) m
            ((rs.map (fun q => q.ts / m)).foldl min (r.ts / m) + j)) = _
    rw [hkeq, List.range_succ_eq_map]
    simp only [List.map_cons, List.map_map, Nat.add_zero, hw0]
    rfl
  have hnn : ∀ u, some u ∈ bucket_values (r :: rs) m → 0 ≤ u := by
    intro u hu
    rw [hbv] at hu
    rcases List.mem_cons.mp hu with h | h
    · have h0 : bucket_range_value (r :: rs) m
          ((rs.map (fun q => q.ts / m)).foldl min (r.ts / m)) = some u := by
        rw [hw0]; exact h.symm
      exact bucket_range_value_nonneg _ _ _ hwf u h0
    · rcases List.mem_map.mp h with ⟨j, _, hj⟩
      exact bucket_range_value_nonneg _ _ _ hwf u hj
  obtain ⟨z, hz, hmem, hle, hub⟩ := py_max_fold
    ((List.range k).map (fun j => bucket_range_value (r :: rs) m
      ((rs.map (fun q => q.ts / m)).foldl min (r.ts / m) + (j + 1)))) w0
  have hzmem : some z ∈ bucket_values (r :: rs) m := by
    rw [hbv]
    rcases hmem with h | h
    · rw [h]; exact List.mem_cons_self _ _
    · exact List.mem_cons_of_mem _ h
  refine ⟨z, ?_, hnn z hzmem, hzmem, ?_⟩
  · rw [hbv, py_max_cons, hz]
  · intro u hu
    rw [hbv] at hu
    rcases List.mem_cons.mp hu with h | h
    · simp only [Option.some.injEq] at h
      rw [h]; exact hle
    · exact hub u h

/-- C7 counterexample: with a single minute bar — far less than one full
4-hour bucket — the volatility computation does not raise any error at all
(there is no `InsufficientDataError` anywhere in the code): the lone
partial bucket aggregates normally and the snapshot is `(2-1)/1 = 1`. -/
theorem c7_partial_bucket_no_error :
    calculate_4h_volatility [⟨0, 2, 1⟩] = Except.ok (some 1) := by
  norm_num [calculate_4h_volatility, last_day, bucket_values, bucket_range_value,
    bucket_rows, py_max, qfold_max, qfold_min, List.range_succ]

/-- C7 amended: the only failure is Python's builtin `ValueError` (from
`max()` of an empty resampled series) when the trailing window is empty; a
partial bucket still yields a value; gap buckets aggregate to NaN but are
excluded from the maximum (NaN never wins a comparison), as the concrete
gap example and the general statement show; and on any nonempty window of
bars with `0 < low <= high` both snapshots are real numbers `>= 0` equal to
the maximum of the occupied buckets' `(max(high)-min(low))/min(low)`. -/
theorem c7_resample_volatility :
    calculate_4h_volatility [] = Except.error PyErr.valueError ∧
    calculate_1h_volatility [] = Except.error PyErr.valueError ∧
    calculate_4h_volatility [⟨0, 2, 1⟩, ⟨500, 3, 2⟩] = Except.ok (some 1) ∧
    (∀ bars : List VBar, bars ≠ [] → (∀ r ∈ bars, 0 < r.low ∧ r.low ≤ r.high) →
      (∃ v, calculate_4h_volatility bars = Except.ok (some v) ∧ 0 ≤ v ∧
        some v ∈ bucket_values (last_day bars) 240 ∧
        ∀ u, some u ∈ bucket_values (last_day bars) 240 → u ≤ v) ∧
      (∃ v, calculate_1h_volatility bars = Except.ok (some v) ∧ 0 ≤ v ∧
        some v ∈ bucket_values (last_day bars) 60 ∧
        ∀ u, some u ∈ bucket_values (last_day bars) 60 → u ≤ v)) := by
  refine ⟨rfl, rfl, ?_, ?_⟩
  · norm_num [calculate_4h_volatility, last_day, bucket_values, bucket_range_value,
      bucket_rows, py_max, qfold_max, qfold_min, opt_gt, List.range_succ]
  · intro bars hne hwf
    have hwf2 : ∀ r ∈ last_day bars, 0 < r.low ∧ r.low ≤ r.high := by
      intro r hr
      exact hwf r (List.drop_subset _ _ hr)
    constructor
    · exact volatility_core (last_day bars) 240 (last_day_ne_nil hne) hwf2
    · exact volatility_core (last_day bars) 60 (last_day_ne_nil hne) hwf2

theorem c7_resample_volatility_witness :
    ∃ v, calculate_4h_volatility [⟨240, 4, 2⟩] = Except.ok (some v) ∧ 0 ≤ v ∧
      some v ∈ bucket_values (last_day [⟨240, 4, 2⟩]) 240 ∧
      ∀ u, some u ∈ bucket_values (last_day [⟨240, 4, 2⟩]) 240 → u ≤ v :=
  (c7_resample_volatility.2.2.2 [⟨240, 4, 2⟩] (by simp)
    (by intro r hr; fin_cases hr <;> norm_num)).1

/- Part 2 embeds `ChanAndSmaCombinedStrategy.generate_signals` from
   src/SBX_strategy.py.  Rolling means are NaN (`none`) while the window is
   incomplete; `np.where(diff > 0, 1, -1)` maps NaN to -1 because `NaN > 0`
   is false; `sign_change < 0` at row 0 involves NaN and is false; pandas
   `Series.sum()` skips NaN, so a wave strength is `sum(skipna) / len`;
   the `prev_wave_strength` column is `shift(1)` of the row-level
   `wave_strength` column, i.e. the previous ROW's value, `none` at row 0. -/

lemma diff_sign_cases (sw mw : ℕ) (closes : List ℚ) (i : ℕ) :
    diff_sign sw mw closes i = 1 ∨ diff_sign sw mw closes i = -1 := by
  unfold diff_sign
  cases diff_5_10 sw mw closes i with
  | none => exact Or.inr rfl
  | some d =>
    by_cases hd : 0 < d
    · exact Or.inl (by simp [hd])
    · exact Or.inr (by simp [hd])

lemma diff_sign_one (sw mw : ℕ) (closes : List ℚ) (i : ℕ)
    (h : diff_sign sw mw closes i = 1) :
    ∃ d, diff_5_10 sw mw closes i = some d ∧ 0 < d := by
  unfold diff_sign at h
  cases hd : diff_5_10 sw mw closes i with
  | none => rw [hd] at h; exact absurd h (by norm_num)
  | some d =>
    simp only [hd] at h
    by_cases h0 : 0 < d
    · exact ⟨d, rfl, h0⟩
    · rw [if_neg h0] at h; exact absurd h (by norm_num)

lemma diff_sign_neg_one (sw mw : ℕ) (closes : List ℚ) (i : ℕ)
    (h : diff_sign sw mw closes i = -1) :
    (diff_5_10 sw mw closes i).getD 0 ≤ 0 := by
  unfold diff_sign at h
  cases hd : diff_5_10 sw mw closes i with
  | none => simp
  | some d =>
    simp only [hd] at h
    by_cases h0 : 0 < d
    · rw [if_pos h0] at h; exact absurd h (by norm_num)
    · simpa using le_of_not_lt h0

lemma sign_flip_iff (sw mw : ℕ) (closes : List ℚ) (j : ℕ) :
    sign_flip sw mw closes (j + 1) = true ↔
    diff_sign sw mw closes (j + 1) ≠ diff_sign sw mw closes j := by
  show decide (diff_sign sw mw closes (j + 1) * diff_sign sw mw closes j < 0) = true ↔ _
  rw [decide_eq_true_iff]
  rcases diff_sign_cases sw mw closes (j + 1) with h1 | h1 <;>
    rcases diff_sign_cases sw mw closes j with h2 | h2 <;>
      rw [h1, h2] <;> norm_num

lemma wave_id_step (sw mw : ℕ) (closes : List ℚ) (j : ℕ) :
    wave_id sw mw closes (j + 1) = wave_id sw mw closes j ∨
    wave_id sw mw closes (j + 1) = wave_id sw mw closes j + 1 := by
  by_cases h : sign_flip sw mw closes (j + 1) <;> simp [wave_id, h]

lemma wave_id_mono (sw mw : ℕ) (closes : List ℚ) :
    ∀ i j, i ≤ j → wave_id sw mw closes i ≤ wave_id sw mw closes j := by
  intro i j
  induction j with
  | zero => intro h; rw [Nat.le_zero.mp h]
  | succ j ih =>
    intro h
    rcases Nat.lt_or_ge i (j + 1) with h1 | h1
    · have h2 := ih (Nat.lt_succ_iff.mp h1)
      rcases wave_id_step sw mw closes j with h3 | h3 <;> omega
    · rw [Nat.le_antisymm h h1]

lemma wave_id_same_sign_succ (sw mw : ℕ) (closes : List ℚ) (j : ℕ)
    (h : wave_id sw mw closes (j + 1) = wave_id sw mw closes j) :
    diff_sign sw mw closes (j + 1) = diff_sign sw mw closes j := by
  by_contra hne
  have hf : sign_flip sw mw closes (j + 1) = true :=
    (sign_flip_iff sw mw closes j).mpr hne
  have : wave_id sw mw closes (j + 1) = wave_id sw mw closes j + 1 := by
    show wave_id sw mw closes j + (if sign_flip sw mw closes (j + 1) then 1 else 0) = _
    rw [hf]
    simp
  omega

lemma wave_id_flip_succ (sw mw : ℕ) (closes : List ℚ) (j : ℕ)
    (h : wave_id sw mw closes (j + 1) ≠ wave_id sw mw closes j) :
    wave_id sw mw closes (j + 1) = wave_id sw mw closes j + 1 ∧
    diff_sign sw mw closes (j + 1) ≠ diff_sign sw mw closes j := by
  constructor
  · rcases wave_id_step sw mw closes j with h1 | h1
    · exact absurd h1 h
    · exact h1
  · intro hs
    apply h
    show wave_id sw mw closes j + (if sign_flip sw mw closes (j + 1) then 1 else 0) = _
    have : sign_flip sw mw closes (j + 1) = false := by
      rcases Bool.eq_false_or_eq_true (sign_flip sw mw closes (j + 1)) with h2 | h2
      · exact absurd hs (by simpa using (sign_flip_iff sw mw closes j).mp h2)
      · exact h2
    rw [this]
    simp

lemma wave_sign_const_le (sw mw : ℕ) (closes : List ℚ) :
    ∀ i j, i ≤ j → wave_id sw mw closes i = wave_id sw mw closes j →
      diff_sign sw mw closes i = diff_sign sw mw closes j := by
  intro i j
  induction j with
  | zero => intro h _; rw [Nat.le_zero.mp h]
  | succ j ih =>
    intro h hw
    rcases Nat.lt_or_ge i (j + 1) with h1 | h1
    · have hij : i ≤ j := Nat.lt_succ_iff.mp h1
      have hmono1 := wave_id_mono sw mw closes i j hij
      have hmono2 := wave_id_mono sw mw closes j (j + 1) (Nat.le_succ j)
      have heq1 : wave_id sw mw closes (j + 1) = wave_id sw mw closes j := by omega
      rw [ih hij (by omega), wave_id_same_sign_succ sw mw closes j heq1]
    · rw [Nat.le_antisymm h h1]

lemma wave_sign_const (sw mw : ℕ) (closes : List ℚ) (i j : ℕ)
    (hw : wave_id sw mw closes i = wave_id sw mw closes j) :
    diff_sign sw mw closes i = diff_sign sw mw closes j := by
  rcases le_total i j with h | h
  · exact wave_sign_const_le sw mw closes i j h hw
  · exact (wave_sign_const_le sw mw closes j i h hw.symm).symm

lemma wave_boundary (sw mw : ℕ) (closes : List ℚ) :
    ∀ i w, wave_id sw mw closes i = w + 1 →
      ∃ k, 1 ≤ k ∧ k ≤ i ∧ wave_id sw mw closes k = w + 1 ∧
        wave_id sw mw closes (k - 1) = w ∧
        diff_sign sw mw closes k ≠ diff_sign sw mw closes (k - 1) := by
  intro i
  induction i with
  | zero =>
    intro w h
    exact absurd h (by simp [wave_id])
  | succ i ih =>
    intro w h
    by_cases heq : wave_id sw mw closes (i + 1) = wave_id sw mw closes i
    · obtain ⟨k, h1, h2, h3, h4, h5⟩ := ih w (by omega)
      exact ⟨k, h1, h2.trans (Nat.le_succ i), h3, h4, h5⟩
    · obtain ⟨hstep, hne⟩ := wave_id_flip_succ sw mw closes i heq
      refine ⟨i + 1, by omega, le_refl _, h, ?_, ?_⟩
      · show wave_id sw mw closes i = w
        omega
      · simpa using hne

lemma qlist_sum_nonpos (l : List ℚ) (h : ∀ x ∈ l, x ≤ 0) : l.sum ≤ 0 := by
  induction l with
  | nil => simp
  | cons a l ih =>
    simp only [List.sum_cons]
    have h1 := h a (List.mem_cons_self a l)
    have h2 := ih (fun x hx => h x (List.mem_cons_of_mem a hx))
    linarith

lemma mem_wave_members (sw mw : ℕ) (closes : List ℚ) (w j : ℕ) :
    j ∈ wave_members sw mw closes w ↔
    j < closes.length ∧ wave_id sw mw closes j = w := by
  unfold wave_members
  rw [List.mem_filter, List.mem_range]
  simp

/-- A sign-positive row's wave has strictly positive strength: every row of
the wave is sign-positive, hence carries a real diff `> 0`. -/
lemma wave_strength_pos (sw mw : ℕ) (closes : List ℚ) (i : ℕ)
    (hn : i < closes.length) (hs : diff_sign sw mw closes i = 1) :
    0 < wave_strength sw mw closes (wave_id sw mw closes i) := by
  have hmem : i ∈ wave_members sw mw closes (wave_id sw mw closes i) :=
    (mem_wave_members sw mw closes _ i).mpr ⟨hn, rfl⟩
  have hall : ∀ j ∈ wave_members sw mw closes (wave_id sw mw closes i),
      0 < (diff_5_10 sw mw closes j).getD 0 := by
    intro j hj
    have hwj := ((mem_wave_members sw mw closes _ j).mp hj).2
    have hsj : diff_sign sw mw closes j = 1 := by
      rw [wave_sign_const sw mw closes j i hwj]; exact hs
    obtain ⟨d, hd, hdpos⟩ := diff_sign_one sw mw closes j hsj
    rw [hd]
    simpa using hdpos
  unfold wave_strength
  apply div_pos
  · apply List.sum_pos
    · intro q hq
      rcases List.mem_map.mp hq with ⟨j, hj, rfl⟩
      exact hall j hj
    · intro hmap
      exact List.ne_nil_of_mem hmem (List.map_eq_nil.mp hmap)
  · exact_mod_cast (by omega :
      0 < max (wave_members sw mw closes (wave_id sw mw closes i)).length 1)

/-- A wave all of whose rows are sign-negative has nonpositive strength:
every row contributes a NaN (skipped, i.e. 0) or a value `<= 0`. -/
lemma wave_strength_nonpos (sw mw : ℕ) (closes : List ℚ) (w : ℕ)
    (hall : ∀ j ∈ wave_members sw mw closes w, diff_sign sw mw closes j = -1) :
    wave_strength sw mw closes w ≤ 0 := by
  unfold wave_strength
  apply div_nonpos_of_nonpos_of_nonneg
  · apply qlist_sum_nonpos
    intro q hq
    rcases List.mem_map.mp hq with ⟨j, hj, rfl⟩
    exact diff_sign_neg_one sw mw closes j (hall j hj)
  · positivity

/-- The coded divergence exit can never fire on a sign-positive row: the
previous ROW is either in the same wave (equal strength) or the last row of
the preceding opposite-sign wave (nonpositive strength below the current
wave's positive strength). -/
lemma code_exit_never (sw mw : ℕ) (closes : List ℚ) (i : ℕ)
    (hn : i < closes.length) (hs : diff_sign sw mw closes i = 1) :
    lt_opt (wave_strength sw mw closes (wave_id sw mw closes i))
      (prev_row_strength sw mw closes i) = false := by
  cases i with
  | zero => rfl
  | succ j =>
    show lt_opt (wave_strength sw mw closes (wave_id sw mw closes (j + 1)))
      (some (wave_strength sw mw closes (wave_id sw mw closes j))) = false
    by_cases heq : wave_id sw mw closes (j + 1) = wave_id sw mw closes j
    · rw [heq]
      simp [lt_opt]
    · obtain ⟨hstep, hne⟩ := wave_id_flip_succ sw mw closes j heq
      have hsj : diff_sign sw mw closes j = -1 := by
        rcases diff_sign_cases sw mw closes j with h | h
        · exact absurd (hs.trans h.symm) hne
        · exact h
      have hallj : ∀ jj ∈ wave_members sw mw closes (wave_id sw mw closes j),
          diff_sign sw mw closes jj = -1 := by
        intro jj hjj
        rw [wave_sign_const sw mw closes jj j
          ((mem_wave_members sw mw closes _ jj).mp hjj).2]
        exact hsj
      have h1 := wave_strength_nonpos sw mw closes _ hallj
      have h2 := wave_strength_pos sw mw closes (j + 1) hn hs
      simp only [lt_opt, decide_eq_false_iff_not]
      exact not_lt.mpr (h1.trans h2.le)

/-- The spec's wave-level divergence exit can never fire either: consecutive
waves alternate sign, so the wave preceding a sign-positive wave is
sign-negative, with nonpositive strength below the current positive one. -/
lemma spec_exit_never (sw mw : ℕ) (closes : List ℚ) (i : ℕ)
    (hn : i < closes.length) (hs : diff_sign sw mw closes i = 1) :
    lt_opt (wave_strength sw mw closes (wave_id sw mw closes i))
      (spec_prev_wave_strength sw mw closes i) = false := by
  unfold spec_prev_wave_strength
  cases hw : wave_id sw mw closes i with
  | zero => simp [lt_opt]
  | succ w =>
    simp only
    obtain ⟨k, hk1, hk2, hk3, hk4, hk5⟩ := wave_boundary sw mw closes i w hw
    have hsk : diff_sign sw mw closes k = 1 := by
      rw [wave_sign_const sw mw closes k i (by rw [hk3, hw])]; exact hs
    have hskm : diff_sign sw mw closes (k - 1) = -1 := by
      rcases diff_sign_cases sw mw closes (k - 1) with h | h
      · exact absurd (hsk.trans h.symm) hk5
      · exact h
    have hallw : ∀ jj ∈ wave_members sw mw closes w, diff_sign sw mw closes jj = -1 := by
      intro jj hjj
      rw [wave_sign_const sw mw closes jj (k - 1)
        (by rw [((mem_wave_members sw mw closes _ jj).mp hjj).2, hk4])]
      exact hskm
    have h1 := wave_strength_nonpos sw mw closes w hallw
    have h2 : 0 < wave_strength sw mw closes (w + 1) := by
      have := wave_strength_pos sw mw closes i hn hs
      rwa [hw] at this
    simp only [lt_opt, decide_eq_false_iff_not]
    exact not_lt.mpr (h1.trans h2.le)

/-- C6: wave ids increment by one exactly at sign flips of `diff_5_10`;
each wave's strength is the mean of `diff_5_10` over the wave's rows
(whenever those rows carry real values); and the long signal flips to flat
exactly on the rows the spec describes.  The biconditional holds because
neither side can ever fire: consecutive waves alternate sign, so on a
sign-positive row the current wave's strength is strictly positive while
both the previous row's wave strength (same wave, or the preceding negative
wave) and the preceding wave's strength are at most its own, never above
it. -/
theorem c6_wave_divergence :
    (∀ (sw mw : ℕ) (closes : List ℚ) (i : ℕ),
      wave_id sw mw closes (i + 1) = wave_id sw mw closes i +
        (if diff_sign sw mw closes (i + 1) ≠ diff_sign sw mw closes i then 1 else 0)) ∧
    (∀ (sw mw : ℕ) (closes : List ℚ) (w : ℕ),
      wave_members sw mw closes w ≠ [] →
      (∀ j ∈ wave_members sw mw closes w, (diff_5_10 sw mw closes j).isSome) →
      wave_strength sw mw closes w =
        ((wave_members sw mw closes w).map (fun j => (diff_5_10 sw mw closes j).getD 0)).sum /
          ((wave_members sw mw closes w).length : ℚ)) ∧
    (∀ (sw mw lw : ℕ) (closes : List ℚ) (i : ℕ), i < closes.length →
      ((base_signal sw lw closes i = 1 ∧ final_signal sw mw lw closes i = 0) ↔
        spec_divergence_exit sw mw lw closes i = true)) := by
  refine ⟨?_, ?_, ?_⟩
  · intro sw mw closes i
    show wave_id sw mw closes i + (if sign_flip sw mw closes (i + 1) then 1 else 0) = _
    congr 1
    by_cases h : diff_sign sw mw closes (i + 1) ≠ diff_sign sw mw closes i
    · rw [if_pos h, if_pos ((sign_flip_iff sw mw closes i).mpr h)]
    · rw [if_neg h]
      have : sign_flip sw mw closes (i + 1) = false := by
        rcases Bool.eq_false_or_eq_true (sign_flip sw mw closes (i + 1)) with h2 | h2
        · exact absurd ((sign_flip_iff sw mw closes i).mp h2) h
        · exact h2
      rw [this]
      simp
  · intro sw mw closes w hne _
    unfold wave_strength
    congr 1
    have : 1 ≤ (wave_members sw mw closes w).length := List.length_pos.mpr hne
    rw [Nat.max_eq_left this]
  · intro sw mw lw closes i hn
    apply iff_of_false
    · rintro ⟨hb, hf⟩
      unfold final_signal at hf
      by_cases hc : condition_weaker sw mw lw closes i = true
      · unfold condition_weaker at hc
        simp only [Bool.and_eq_true, decide_eq_true_eq] at hc
        have := code_exit_never sw mw closes i hn hc.1.2
        rw [this] at hc
        exact absurd hc.2 (by simp)
      · rw [if_neg hc] at hf
        rw [hb] at hf
        exact absurd hf (by norm_num)
    · intro hspec
      unfold spec_divergence_exit at hspec
      simp only [Bool.and_eq_true, decide_eq_true_eq] at hspec
      have := spec_exit_never sw mw closes i hn hspec.1.2
      rw [this] at hspec
      exact absurd hspec.2 (by simp)

theorem c6_wave_divergence_witness :
    wave_strength 1 1 [1, 2] 0 =
      ((wave_members 1 1 [1, 2] 0).map (fun j => (diff_5_10 1 1 [1, 2] j).getD 0)).sum /
        ((wave_members 1 1 [1, 2] 0).length : ℚ) ∧
    ((base_signal 1 1 [1, 2] 0 = 1 ∧ final_signal 1 1 1 [1, 2] 0 = 0) ↔
      spec_divergence_exit 1 1 1 [1, 2] 0 = true) :=
  ⟨c6_wave_divergence.2.1 1 1 [1, 2] 0
    (List.ne_nil_of_mem ((mem_wave_members 1 1 [1, 2] 0 0).mpr ⟨by norm_num, rfl⟩))
    (by
      intro j hj
      have h2 := ((mem_wave_members 1 1 [1, 2] 0 j).mp hj).1
      simp only [List.length_cons, List.length_nil] at h2
      interval_cases j <;> rfl),
   c6_wave_divergence.2.2 1 1 1 [1, 2] 0 (by norm_num)⟩
